import Mathlib

/-!
Verification of the Telelog instrumentation library (structured logging,
scoped context / profiling / component guards, Mermaid diagram synthesis).

The repository's visible Rust sources are the benchmarks, the examples and
the Python binding shim; the core library (context store, logger facade,
profiling registry, component tracker, diagram synthesizer) is exercised by
that code but its sources are not part of the visible tree.  Definitions for
the core are therefore modelled from the specification (each such definition
says so in its doc comment); the Python binding dispatch is translated
directly from `src/python.rs`.

Machine integers do not occur on the modelled paths; instants are modelled
as natural numbers read from a strictly monotone logical clock, durations as
natural-number differences, and signed offsets as integers.
-/

namespace Telelog

/-! ## Context store (spec section 4.1)

Modelled from the spec: the context store is a shared mapping from string
keys to string values with `add` (overwrite), `remove` (no-op if absent),
`clear`, and scoped guards created by `with(key, value)`.  The map is
represented as an association list whose lookup returns the most recent
binding for a key; `ctxAdd` removes any previous binding before inserting,
so each key occurs at most once. -/

abbrev CtxMap := List (String × String)

def ctxLookup (m : CtxMap) (k : String) : Option String :=
  (m.find? (fun kv => kv.1 == k)).map Prod.snd

def ctxRemove (k : String) (m : CtxMap) : CtxMap :=
  m.filter (fun kv => kv.1 != k)

def ctxAdd (k v : String) (m : CtxMap) : CtxMap :=
  (k, v) :: ctxRemove k m

def ctxClear (_m : CtxMap) : CtxMap := []

/-- Modelled from the spec: on scoped release a `ContextGuard` holding
key `k` and installed value `v` compares the value currently stored under
`k` with `v`; if unchanged it removes the key, otherwise it leaves the map
untouched (last-writer-owns-removal policy). -/
def guardRelease (k v : String) (m : CtxMap) : CtxMap :=
  if ctxLookup m k = some v then ctxRemove k m else m

/-- Modelled from the spec: a well-nested program over the context store.
`scope k v body rest` is `with(k, v)` followed by `body` inside the guard's
scope, the guard's scoped release, and then `rest`; the other constructors
are the explicit operations. -/
inductive CtxProg where
  | stop : CtxProg
  | add (k v : String) (rest : CtxProg) : CtxProg
  | remove (k : String) (rest : CtxProg) : CtxProg
  | clear (rest : CtxProg) : CtxProg
  | scope (k v : String) (body rest : CtxProg) : CtxProg
deriving DecidableEq

/-- Run a context program: explicit operations mutate the map, a scope
performs `add`, runs its body, then applies the guard-release policy. -/
def runCtx : CtxProg → CtxMap → CtxMap
  | .stop, m => m
  | .add k v r, m => runCtx r (ctxAdd k v m)
  | .remove k r, m => runCtx r (ctxRemove k m)
  | .clear r, m => runCtx r (ctxClear m)
  | .scope k v body r, m => runCtx r (guardRelease k v (runCtx body (ctxAdd k v m)))

/-- Run only the explicit `add`/`remove`/`clear` operations of a program,
ignoring the guard installs and releases. -/
def runCtxOps : CtxProg → CtxMap → CtxMap
  | .stop, m => m
  | .add k v r, m => runCtxOps r (ctxAdd k v m)
  | .remove k r, m => runCtxOps r (ctxRemove k m)
  | .clear r, m => runCtxOps r (ctxClear m)
  | .scope _ _ body r, m => runCtxOps r (runCtxOps body m)

/-- Keys touched by the explicit `add`/`remove` operations of a program. -/
def opKeys : CtxProg → List String
  | .stop => []
  | .add k _ r => k :: opKeys r
  | .remove k r => k :: opKeys r
  | .clear r => opKeys r
  | .scope _ _ body r => opKeys body ++ opKeys r

/-- Keys owned by the context guards of a program. -/
def guardKeys : CtxProg → List String
  | .stop => []
  | .add _ _ r => guardKeys r
  | .remove _ r => guardKeys r
  | .clear r => guardKeys r
  | .scope k _ body r => k :: (guardKeys body ++ guardKeys r)

/-! ## Log levels and the minimum-level filter (spec sections 3 and 4.5)

Modelled from the spec: records carry an ordered level
`Debug < Info < Warning < Error < Critical`; every emission path checks
`record.level >= configured_min_level` and a record below the minimum
produces no sink write. -/

inductive LogLevel where
  | debug | info | warning | error | critical
deriving DecidableEq

def levelToNat : LogLevel → Nat
  | .debug => 0
  | .info => 1
  | .warning => 2
  | .error => 3
  | .critical => 4

/-- `levelPasses lvl minLevel` is the filter branch `lvl >= minLevel`. -/
def levelPasses (lvl minLevel : LogLevel) : Bool :=
  levelToNat minLevel ≤ levelToNat lvl

/-- Modelled from the spec: the logger facade keeps the configured minimum
level; the sink boundary is modelled as the ordered list of records it has
received. -/
structure LoggerState where
  minLevel : LogLevel
  emitted : List (LogLevel × String)
deriving DecidableEq

/-- Modelled from the spec: emitting a record first compares its level to
the configured minimum; below-minimum records produce zero sink writes. -/
def logMessage (lvl : LogLevel) (msg : String) (st : LoggerState) : LoggerState :=
  if levelPasses lvl st.minLevel then
    { st with emitted := st.emitted ++ [(lvl, msg)] }
  else st

def debugLog (msg : String) (st : LoggerState) : LoggerState := logMessage .debug msg st

def warningLog (msg : String) (st : LoggerState) : LoggerState := logMessage .warning msg st

/-! ## Profiling guard (spec section 4.2)

Modelled from the spec: `profile(name)` records `now()` in a guard;
`elapsed()` returns `now() - start` without altering guard state.  The wall
clock is passed explicitly as a natural-number instant. -/

structure ProfileGuard where
  operation : String
  start : Nat
deriving DecidableEq

def profile (name : String) (now : Nat) : ProfileGuard :=
  { operation := name, start := now }

/-- Modelled from the spec: `elapsed() -> Duration` returns `now() - start`;
it is a pure reading that takes the guard by reference and returns only the
duration, so the guard itself is unchanged by construction. -/
def elapsed (g : ProfileGuard) (now : Nat) : Nat :=
  now - g.start

/-! ## Component tracker (spec section 4.3)

Modelled from the spec: the tracker owns an insertion-ordered node table
with monotonically increasing ids and one active stack per call chain (one
call chain is modelled here).  `track_component` allocates a node whose
parent is the top of the active stack, stamps `start = now()` and pushes it;
scoped release pops the matching node and stamps `end = now()`.  The wall
clock is a strictly monotone logical clock carried in the state. -/

structure CNode where
  id : Nat
  name : String
  parent : Option Nat
  start : Nat
  stop : Option Nat
deriving DecidableEq, Repr

structure TrackerState where
  table : List CNode
  stack : List Nat
  clock : Nat
deriving DecidableEq, Repr

def initTracker : TrackerState := { table := [], stack := [], clock := 0 }

/-- Modelled from the spec: `track_component(name)` reads the current active
node from the top of the stack, allocates a node with the next id and
`start = now()`, and pushes it. -/
def openComp (name : String) (st : TrackerState) : TrackerState :=
  { table := st.table ++
      [{ id := st.table.length, name := name, parent := st.stack.head?,
         start := st.clock, stop := none }],
    stack := st.table.length :: st.stack,
    clock := st.clock + 1 }

/-- Stamp `end = e` on the node with id `i` (ids are unique in a tracker
table, so at most one node changes). -/
def setStop (i e : Nat) (t : List CNode) : List CNode :=
  t.map (fun n => if n.id = i then { n with stop := some e } else n)

/-- Modelled from the spec: scoped release pops the active stack and stamps
`end = now()` on the popped node, completing it. -/
def closeComp (st : TrackerState) : TrackerState :=
  match st.stack with
  | [] => st
  | i :: rest =>
      { table := setStop i st.clock st.table, stack := rest, clock := st.clock + 1 }

/-- A well-nested component-tracking program on one call chain:
`scope name body rest` creates a guard, runs `body` inside its scope,
releases the guard, then runs `rest`.  Each guard is released before its
enclosing guard by construction. -/
inductive CompProg where
  | stop : CompProg
  | scope (name : String) (body rest : CompProg) : CompProg
deriving DecidableEq

def runComp : CompProg → TrackerState → TrackerState
  | .stop, st => st
  | .scope n body rest, st => runComp rest (closeComp (runComp body (openComp n st)))

/-- Number of guards a program creates. -/
def scopeCount : CompProg → Nat
  | .stop => 0
  | .scope _ body rest => 1 + scopeCount body + scopeCount rest

/-- Maximal nesting depth of the guard scopes of a program. -/
def progDepth : CompProg → Nat
  | .stop => 0
  | .scope _ body rest => max (1 + progDepth body) (progDepth rest)

/-- The parent id recorded for the node with id `i` (ids are positional in a
tracker table). -/
def parentOf (t : List CNode) (i : Nat) : Option Nat :=
  (t[i]?).bind CNode.parent

/-- Length of the parent chain from node `i` rootwards, with explicit fuel
(in a tracker table every parent id is smaller than its child's id, so fuel
`i + 1` is always enough). -/
def chainLen (t : List CNode) : Nat → Nat → Nat
  | 0, _ => 0
  | fuel + 1, i =>
      match t[i]? with
      | none => 0
      | some n =>
          match n.parent with
          | none => 1
          | some q => 1 + chainLen t fuel q

/-- Depth of the node with id `i` in the component tree (number of nodes on
its rootward parent chain, itself included). -/
def depthAt (t : List CNode) (i : Nat) : Nat := chainLen t (i + 1) i

/-- Maximum tree depth over a list of nodes, measured in table `t`. -/
def depthMax (t : List CNode) (ns : List CNode) : Nat :=
  ns.foldr (fun n acc => max (depthAt t n.id) acc) 0

/-- Depth of the component tree recorded in table `t`. -/
def treeDepth (t : List CNode) : Nat := depthMax t t

/-- Structure of the active stack: each entry's recorded parent is the entry
below it, and entries strictly decrease upwards in allocation order. -/
def StackOK (t : List CNode) : List Nat → Prop
  | [] => True
  | s :: rest => parentOf t s = rest.head? ∧ (∀ x ∈ rest, x < s) ∧ StackOK t rest

/-- Invariants of a tracker state: ids are positional; starts and completed
stops are bounded by the clock; a node is active exactly when it is on the
stack; the stack is well-formed; and every recorded parent edge points to a
strictly earlier node that started no later and (once both are complete)
ended no earlier. -/
structure TInv (st : TrackerState) : Prop where
  ids : ∀ (i : Nat) (n : CNode), st.table[i]? = some n → n.id = i
  startLt : ∀ n ∈ st.table, n.start < st.clock
  stopBound : ∀ n ∈ st.table, ∀ e, n.stop = some e → n.start < e ∧ e < st.clock
  activeIff : ∀ n ∈ st.table, (n.stop = none ↔ n.id ∈ st.stack)
  stackLt : ∀ s ∈ st.stack, s < st.table.length
  sOK : StackOK st.table st.stack
  parentRel : ∀ n ∈ st.table, ∀ q, n.parent = some q → q < n.id ∧
      ∀ m ∈ st.table, m.id = q →
        m.start < n.start ∧
        ∀ e, n.stop = some e → m.stop = none ∨ ∃ e2, m.stop = some e2 ∧ e < e2

/-! ## Diagram synthesis (spec section 4.4)

Modelled from the spec: `generate(tracker_snapshot, ChartConfig) -> Diagram`
is a pure function of the snapshot and the configuration; timing-aware modes
use the minimum start instant across the snapshot as baseline 0.  The
flowchart derives one diagram node per tracker node (identifier derived from
the tracker node's id) and one edge per parent-to-child relation. -/

inductive ChartType where
  | flowchart | timeline | gantt
deriving DecidableEq

inductive ChartDirection where
  | topDown | leftRight
deriving DecidableEq

structure ChartConfig where
  chartType : ChartType
  direction : ChartDirection
  showTiming : Bool
  showMemory : Bool
deriving DecidableEq

def defaultChartConfig : ChartConfig :=
  { chartType := .flowchart, direction := .topDown, showTiming := false,
    showMemory := false }

def digitChar (d : Nat) : Char :=
  match d with
  | 0 => '0' | 1 => '1' | 2 => '2' | 3 => '3' | 4 => '4'
  | 5 => '5' | 6 => '6' | 7 => '7' | 8 => '8' | _ => '9'

/-- Decimal digit characters of `n`, most significant first. -/
def digitChars (n : Nat) : List Char :=
  if n = 0 then ['0'] else ((Nat.digits 10 n).map digitChar).reverse

def natStr (n : Nat) : String := String.mk (digitChars n)

/-- Diagram identifier of the tracker node with id `i`; derived from the id
only, so identifiers stay distinct when display names collide. -/
def flowNodeId (i : Nat) : String :=
  String.mk (['n', 'o', 'd', 'e'] ++ digitChars i)

/-- One flowchart node declaration per tracker node; nodes still active at
generation time carry a distinct marker instead of being omitted. -/
def flowchartNodes (t : List CNode) : List String :=
  t.map (fun n =>
    flowNodeId n.id ++ "[" ++ n.name ++
      (match n.stop with | none => " (active)" | some _ => "") ++ "]")

/-- One flowchart edge per recorded parent-to-child relation. -/
def flowchartEdges (t : List CNode) : List String :=
  t.filterMap (fun n => n.parent.map (fun q => flowNodeId q ++ " --> " ++ flowNodeId n.id))

def dirToken : ChartDirection → String
  | .topDown => "TD"
  | .leftRight => "LR"

def joinLines (ls : List String) : String :=
  ls.foldr (fun l acc => l ++ "\n" ++ acc) ""

def generateFlowchart (cfg : ChartConfig) (t : List CNode) : String :=
  "flowchart " ++ dirToken cfg.direction ++ "\n" ++
    joinLines (flowchartNodes t) ++ joinLines (flowchartEdges t)

/-- Baseline instant of a snapshot: the minimum start instant across all
nodes (0 for an empty snapshot). -/
def ganttBaseline : List CNode → Nat
  | [] => 0
  | n :: rest => rest.foldr (fun m acc => min m.start acc) n.start

structure GanttTask where
  taskName : String
  startOffset : Int
  duration : Option Int
deriving DecidableEq

/-- One Gantt task per node: start offset relative to the baseline, duration
`end - start` for completed nodes, `none` (an "ongoing" sentinel) for nodes
still active. -/
def ganttTasks (t : List CNode) : List GanttTask :=
  t.map (fun n =>
    { taskName := n.name,
      startOffset := (n.start : Int) - (ganttBaseline t : Int),
      duration := n.stop.map (fun e => (e : Int) - (n.start : Int)) })

def ganttTaskLine (task : GanttTask) : String :=
  "    " ++ task.taskName ++ " : " ++ toString task.startOffset ++
    (match task.duration with
     | none => " : ongoing"
     | some d => " : " ++ toString d)

def generateGantt (t : List CNode) : String :=
  "gantt\n    dateFormat X\n" ++ joinLines ((ganttTasks t).map ganttTaskLine)

/-- Insert a node into a list sorted by start instant with ties broken by
node id (chronological order of timeline entries). -/
def timelineInsert (n : CNode) : List CNode → List CNode
  | [] => [n]
  | m :: rest =>
      if n.start < m.start ∨ (n.start = m.start ∧ n.id ≤ m.id) then
        n :: m :: rest
      else m :: timelineInsert n rest

def timelineSort (t : List CNode) : List CNode :=
  t.foldr timelineInsert []

def timelineEntry (showTiming : Bool) (n : CNode) : String :=
  "    " ++ n.name ++
    (if showTiming then
      match n.stop with
      | some e => " : " ++ natStr (e - n.start)
      | none => " : ongoing"
     else "")

def generateTimeline (cfg : ChartConfig) (t : List CNode) : String :=
  "timeline\n" ++ joinLines ((timelineSort t).map (timelineEntry cfg.showTiming))

/-- Modelled from the spec: pure chart-type dispatch
`generate(tracker_snapshot, config)` over the closed variant
Flowchart / Timeline / Gantt. -/
def generateDiagram (cfg : ChartConfig) (t : List CNode) : String :=
  match cfg.chartType with
  | .flowchart => generateFlowchart cfg t
  | .timeline => generateTimeline cfg t
  | .gantt => generateGantt t

/-- Modelled from the spec: diagram generation with the wall clock at
generation time passed explicitly; the spec requires no reliance on the wall
clock beyond what the snapshot already recorded, so the generator never
reads its `now` argument. -/
def generateDiagramAt (_now : Nat) (cfg : ChartConfig) (t : List CNode) : String :=
  generateDiagram cfg t

/-! ## Diagram persistence (spec section 4.4, `save_diagram`)

Modelled from the spec: `save_diagram` attempts an external diagram
rendering step; on any failure of that step it falls back to writing the raw
diagram markup to a sibling text file and succeeds.  The external renderer
is an oracle returning the rendered bytes or `none` on failure; the result
lists the `(path, contents)` writes performed. -/

def save_diagram (render : String → String → Option String)
    (diagram : String) (path : String) : Except String (List (String × String)) :=
  match render diagram path with
  | some rendered => .ok [(path, rendered)]
  | none => .ok [(path ++ ".mmd", diagram)]

/-! ## Python binding dispatch (src/python.rs, `Logger::log_with`)

Translated from the source: `log_with` lowercases the level string and
dispatches to the corresponding structured-log method, passing the message
and the key/value data through unchanged; any other string produces a
`PyValueError` naming the invalid level.  Lowercasing is modelled on the
ASCII range, which agrees with Rust's `str::to_lowercase` on every string
relevant to the dispatch table. -/

inductive StructMethod where
  | debugWith | infoWith | warningWith | errorWith | criticalWith
deriving DecidableEq

def lowerChar (c : Char) : Char :=
  if 'A' ≤ c ∧ c ≤ 'Z' then Char.ofNat (c.toNat + 32) else c

def toLowerAscii (s : String) : String := String.mk (s.data.map lowerChar)

def log_with (level msg : String) (data : List (String × String)) :
    Except String (StructMethod × String × List (String × String)) :=
  match toLowerAscii level with
  | "debug" => .ok (.debugWith, msg, data)
  | "info" => .ok (.infoWith, msg, data)
  | "warning" => .ok (.warningWith, msg, data)
  | "warn" => .ok (.warningWith, msg, data)
  | "error" => .ok (.errorWith, msg, data)
  | "critical" => .ok (.criticalWith, msg, data)
  | "crit" => .ok (.criticalWith, msg, data)
  | _ => .error ("Invalid log level: " ++ level)

/-! ## Context-store lookup lemmas -/

theorem ctxLookup_cons_of_ne (a : String × String) (t : CtxMap) (k2 : String)
    (h : a.1 ≠ k2) : ctxLookup (a :: t) k2 = ctxLookup t k2 := by
  have h2 : (a.1 == k2) = false := beq_eq_false_iff_ne.mpr h
  simp only [ctxLookup, List.find?_cons, h2]

theorem ctxLookup_cons_of_eq (a : String × String) (t : CtxMap) (k2 : String)
    (h : a.1 = k2) : ctxLookup (a :: t) k2 = some a.2 := by
  have h2 : (a.1 == k2) = true := beq_iff_eq.mpr h
  simp only [ctxLookup, List.find?_cons, h2, Option.map_some']

theorem ctxRemove_cons_of_eq (a : String × String) (t : CtxMap) (k : String)
    (h : a.1 = k) : ctxRemove k (a :: t) = ctxRemove k t := by
  have h1 : (a.1 != k) = false := by simp [h]
  simp only [ctxRemove, List.filter_cons, h1, Bool.false_eq_true, if_false]

theorem ctxRemove_cons_of_ne (a : String × String) (t : CtxMap) (k : String)
    (h : a.1 ≠ k) : ctxRemove k (a :: t) = a :: ctxRemove k t := by
  have h1 : (a.1 != k) = true := by simp [h]
  simp only [ctxRemove, List.filter_cons, h1, if_true]

theorem ctxLookup_remove_self (k : String) (m : CtxMap) :
    ctxLookup (ctxRemove k m) k = none := by
  induction m with
  | nil => rfl
  | cons a t ih =>
    by_cases h : a.1 = k
    · rw [ctxRemove_cons_of_eq a t k h]
      exact ih
    · rw [ctxRemove_cons_of_ne a t k h, ctxLookup_cons_of_ne a _ k h]
      exact ih

theorem ctxLookup_remove_other (k k2 : String) (m : CtxMap) (h : k2 ≠ k) :
    ctxLookup (ctxRemove k m) k2 = ctxLookup m k2 := by
  induction m with
  | nil => rfl
  | cons a t ih =>
    by_cases ha : a.1 = k
    · have hne : a.1 ≠ k2 := by
        rw [ha]
        exact fun hc => h hc.symm
      rw [ctxRemove_cons_of_eq a t k ha, ih, ctxLookup_cons_of_ne a t k2 hne]
    · by_cases hb : a.1 = k2
      · rw [ctxRemove_cons_of_ne a t k ha, ctxLookup_cons_of_eq _ _ k2 hb,
          ctxLookup_cons_of_eq a t k2 hb]
      · rw [ctxRemove_cons_of_ne a t k ha, ctxLookup_cons_of_ne _ _ k2 hb,
          ctxLookup_cons_of_ne a t k2 hb]
        exact ih

theorem ctxLookup_add_self (k v : String) (m : CtxMap) :
    ctxLookup (ctxAdd k v m) k = some v := by
  simp [ctxAdd, ctxLookup, List.find?_cons]

theorem ctxLookup_add_other (k v k2 : String) (m : CtxMap) (h : k2 ≠ k) :
    ctxLookup (ctxAdd k v m) k2 = ctxLookup m k2 := by
  have hne : k ≠ k2 := fun hc => h hc.symm
  simp only [ctxAdd, ctxLookup, List.find?_cons]
  rw [show ((k, v).1 == k2) = false from by simpa using hne]
  exact ctxLookup_remove_other k k2 m h

theorem guardRelease_lookup_other (k v k2 : String) (m : CtxMap) (h : k2 ≠ k) :
    ctxLookup (guardRelease k v m) k2 = ctxLookup m k2 := by
  unfold guardRelease
  split
  · exact ctxLookup_remove_other k k2 m h
  · rfl

/-- Claim C1: on scoped release a context guard removes its key exactly when
the stored value still equals the value it installed; if the value was
overwritten the guard leaves the key and its current value untouched, so a
guard for (K, V1) followed by an explicit add(K, V2) with a different value
leaves K mapped to V2 after release. -/
theorem contextGuard_release_policy (m : CtxMap) (k v : String) :
    (ctxLookup m k = some v →
        ctxLookup (guardRelease k v m) k = none ∧
        ∀ k2, k2 ≠ k → ctxLookup (guardRelease k v m) k2 = ctxLookup m k2) ∧
    (ctxLookup m k ≠ some v → guardRelease k v m = m) ∧
    (∀ v2, v2 ≠ v →
        ctxLookup (guardRelease k v (ctxAdd k v2 (ctxAdd k v m))) k = some v2) := by
  refine ⟨?_, ?_, ?_⟩
  · intro h
    constructor
    · rw [guardRelease, if_pos h]
      exact ctxLookup_remove_self k m
    · intro k2 hk2
      exact guardRelease_lookup_other k v k2 m hk2
  · intro h
    rw [guardRelease, if_neg h]
  · intro v2 hv2
    have hcur : ctxLookup (ctxAdd k v2 (ctxAdd k v m)) k = some v2 :=
      ctxLookup_add_self k v2 _
    have hne : ctxLookup (ctxAdd k v2 (ctxAdd k v m)) k ≠ some v := by
      rw [hcur]
      intro hc
      exact hv2 (Option.some.inj hc)
    rw [guardRelease, if_neg hne]
    exact hcur

/-- Witness for C1 at concrete inputs. -/
theorem contextGuard_release_policy_witness :
    ctxLookup [("k", "v1")] "k" = some "v1" ∧
    ctxLookup (guardRelease "k" "v1" [("k", "v1")]) "k" = none ∧
    ("v2" : String) ≠ "v1" ∧
    ctxLookup (guardRelease "k" "v1" (ctxAdd "k" "v2" (ctxAdd "k" "v1" []))) "k" = some "v2" := by
  refine ⟨by decide, ?_, by decide, ?_⟩
  · exact ((contextGuard_release_policy [("k", "v1")] "k" "v1").1 (by decide)).1
  · exact (contextGuard_release_policy [] "k" "v1").2.2 "v2" (by decide)

/-! ## Minimum-level filtering -/

/-- Claim C3: with configured minimum level Warning, `debug("x")` then
`warning("y")` emits exactly one record, the one for "y"; in general a
record whose level fails the minimum-level comparison produces zero sink
writes. -/
theorem minLevel_filter (st : LoggerState) (h : st.minLevel = .warning) :
    (warningLog "y" (debugLog "x" st)).emitted = st.emitted ++ [(.warning, "y")] ∧
    (∀ (lvl : LogLevel) (msg : String) (st2 : LoggerState),
        levelPasses lvl st2.minLevel = false →
        (logMessage lvl msg st2).emitted = st2.emitted) := by
  constructor
  · simp [warningLog, debugLog, logMessage, levelPasses, h, levelToNat]
  · intro lvl msg st2 hfail
    simp [logMessage, hfail]

/-- Witness for C3: a Warning-level logger starting with an empty sink
emits exactly the record for "y". -/
theorem minLevel_filter_witness :
    (warningLog "y" (debugLog "x" { minLevel := .warning, emitted := [] })).emitted =
      [(LogLevel.warning, "y")] ∧
    (logMessage .debug "z" { minLevel := .warning, emitted := [] }).emitted = [] := by
  have h := minLevel_filter { minLevel := .warning, emitted := [] } rfl
  exact ⟨h.1, h.2 .debug "z" { minLevel := .warning, emitted := [] } (by decide)⟩

/-! ## Profiling guard -/

/-- Claim C7: `elapsed()` returns `now() - start` without altering guard
state (it is a pure reading of the guard), so successive queries at
non-decreasing instants return non-decreasing durations. -/
theorem elapsed_monotone (g : ProfileGuard) (t1 t2 : Nat) (h : t1 ≤ t2) :
    elapsed g t1 ≤ elapsed g t2 ∧
    elapsed g t1 = t1 - g.start ∧ elapsed g t2 = t2 - g.start :=
  ⟨Nat.sub_le_sub_right h g.start, rfl, rfl⟩

/-- Witness for C7 at a concrete guard and two concrete instants. -/
theorem elapsed_monotone_witness :
    elapsed { operation := "op", start := 2 } 5 ≤
      elapsed { operation := "op", start := 2 } 9 ∧
    elapsed { operation := "op", start := 2 } 5 = 3 :=
  ⟨(elapsed_monotone { operation := "op", start := 2 } 5 9 (by decide)).1, rfl⟩

/-! ## Diagram-generation determinism -/

/-- Claim C4: diagram generation is a pure function of the tracker snapshot
and the chart configuration; the wall clock at generation time is never
read, so two invocations yield byte-identical output. -/
theorem generateDiagram_deterministic (cfg : ChartConfig) (t : List CNode)
    (now1 now2 : Nat) :
    generateDiagramAt now1 cfg t = generateDiagramAt now2 cfg t ∧
    generateDiagram cfg t = generateDiagram cfg t :=
  ⟨rfl, rfl⟩

/-! ## Diagram persistence fallback -/

/-- Claim C9: `save_diagram` first attempts the external rendering step; on
its failure it writes the raw diagram markup to a sibling text file itself
and still succeeds, and on success it records the rendered output. -/
theorem save_diagram_fallback (render : String → String → Option String)
    (d p : String) :
    (render d p = none →
        save_diagram render d p = .ok [(p ++ ".mmd", d)]) ∧
    (∀ out, render d p = some out → save_diagram render d p = .ok [(p, out)]) := by
  constructor
  · intro h
    simp [save_diagram, h]
  · intro out h
    simp [save_diagram, h]

/-- Witness for C9: a renderer that always fails makes `save_diagram` write
the markup to the sibling `.mmd` file and succeed. -/
theorem save_diagram_fallback_witness :
    save_diagram (fun _ _ => none) "flowchart TD" "chart" =
      .ok [("chart" ++ ".mmd", "flowchart TD")] :=
  (save_diagram_fallback (fun _ _ => none) "flowchart TD" "chart").1 rfl

/-! ## Guard scopes interleaved with explicit context operations -/

theorem runCtx_agree (G : List String) :
    ∀ (p : CtxProg) (m1 m2 : CtxMap),
      (∀ x ∈ guardKeys p, x ∈ G) →
      (∀ k, k ∉ G → ctxLookup m1 k = ctxLookup m2 k) →
      ∀ k, k ∉ G → ctxLookup (runCtx p m1) k = ctxLookup (runCtxOps p m2) k := by
  intro p
  induction p with
  | stop =>
    intro m1 m2 _ hag k hk
    exact hag k hk
  | add k0 v r ih =>
    intro m1 m2 hG hag k hk
    refine ih (ctxAdd k0 v m1) (ctxAdd k0 v m2) hG ?_ k hk
    intro k2 hk2
    by_cases h : k2 = k0
    · rw [h, ctxLookup_add_self, ctxLookup_add_self]
    · rw [ctxLookup_add_other _ _ _ _ h, ctxLookup_add_other _ _ _ _ h]
      exact hag k2 hk2
  | remove k0 r ih =>
    intro m1 m2 hG hag k hk
    refine ih (ctxRemove k0 m1) (ctxRemove k0 m2) hG ?_ k hk
    intro k2 hk2
    by_cases h : k2 = k0
    · rw [h, ctxLookup_remove_self, ctxLookup_remove_self]
    · rw [ctxLookup_remove_other _ _ _ h, ctxLookup_remove_other _ _ _ h]
      exact hag k2 hk2
  | clear r ih =>
    intro m1 m2 hG hag k hk
    exact ih (ctxClear m1) (ctxClear m2) hG (fun _ _ => rfl) k hk
  | scope k0 v body r ihb ihr =>
    intro m1 m2 hG hag k hk
    have hk0 : k0 ∈ G := hG k0 (by rw [guardKeys]; exact List.mem_cons_self k0 _)
    have hGb : ∀ x ∈ guardKeys body, x ∈ G := fun x hx =>
      hG x (by rw [guardKeys]; exact List.mem_cons_of_mem _ (List.mem_append_left _ hx))
    have hGr : ∀ x ∈ guardKeys r, x ∈ G := fun x hx =>
      hG x (by rw [guardKeys]; exact List.mem_cons_of_mem _ (List.mem_append_right _ hx))
    have hag1 : ∀ k2, k2 ∉ G → ctxLookup (ctxAdd k0 v m1) k2 = ctxLookup m2 k2 := by
      intro k2 hk2
      have hne : k2 ≠ k0 := fun hc => hk2 (hc ▸ hk0)
      rw [ctxLookup_add_other _ _ _ _ hne]
      exact hag k2 hk2
    have hbody := ihb (ctxAdd k0 v m1) m2 hGb hag1
    have hag2 : ∀ k2, k2 ∉ G →
        ctxLookup (guardRelease k0 v (runCtx body (ctxAdd k0 v m1))) k2 =
          ctxLookup (runCtxOps body m2) k2 := by
      intro k2 hk2
      have hne : k2 ≠ k0 := fun hc => hk2 (hc ▸ hk0)
      rw [guardRelease_lookup_other _ _ _ _ hne]
      exact hbody k2 hk2
    exact ihr _ _ hGr hag2 k hk

theorem runCtx_untouch_key (g : String) :
    ∀ (p : CtxProg) (m : CtxMap), g ∉ opKeys p →
      ctxLookup (runCtx p m) g = ctxLookup m g ∨ ctxLookup (runCtx p m) g = none := by
  intro p
  induction p with
  | stop =>
    intro m _
    exact Or.inl rfl
  | add k0 v r ih =>
    intro m hg
    obtain ⟨h1, h2⟩ : g ≠ k0 ∧ g ∉ opKeys r := by
      rw [opKeys] at hg
      exact ⟨fun hc => hg (hc ▸ List.mem_cons_self k0 _), fun hc => hg (List.mem_cons_of_mem _ hc)⟩
    have := ih (ctxAdd k0 v m) h2
    rwa [ctxLookup_add_other _ _ _ _ h1] at this
  | remove k0 r ih =>
    intro m hg
    obtain ⟨h1, h2⟩ : g ≠ k0 ∧ g ∉ opKeys r := by
      rw [opKeys] at hg
      exact ⟨fun hc => hg (hc ▸ List.mem_cons_self k0 _), fun hc => hg (List.mem_cons_of_mem _ hc)⟩
    have := ih (ctxRemove k0 m) h2
    rwa [ctxLookup_remove_other _ _ _ h1] at this
  | clear r ih =>
    intro m hg
    rw [opKeys] at hg
    rcases ih (ctxClear m) hg with h | h
    · exact Or.inr h
    · exact Or.inr h
  | scope k0 v body r ihb ihr =>
    intro m hg
    have hgb : g ∉ opKeys body := by
      rw [opKeys] at hg
      exact fun hc => hg (List.mem_append_left _ hc)
    have hgr : g ∉ opKeys r := by
      rw [opKeys] at hg
      exact fun hc => hg (List.mem_append_right _ hc)
    by_cases hk : k0 = g
    · subst hk
      have h3 : ctxLookup (guardRelease k0 v (runCtx body (ctxAdd k0 v m))) k0 = none := by
        rcases ihb (ctxAdd k0 v m) hgb with h | h
        · rw [ctxLookup_add_self] at h
          rw [guardRelease, if_pos h]
          exact ctxLookup_remove_self _ _
        · rw [guardRelease]
          split
          · exact ctxLookup_remove_self _ _
          · exact h
      rcases ihr _ hgr with h | h
      · exact Or.inr (h.trans h3)
      · exact Or.inr h
    · have hne : g ≠ k0 := fun hc => hk hc.symm
      have h3 : ctxLookup (guardRelease k0 v (runCtx body (ctxAdd k0 v m))) g =
          ctxLookup m g ∨
          ctxLookup (guardRelease k0 v (runCtx body (ctxAdd k0 v m))) g = none := by
        rw [guardRelease_lookup_other _ _ _ _ hne]
        have := ihb (ctxAdd k0 v m) hgb
        rwa [ctxLookup_add_other _ _ _ _ hne] at this
      rcases ihr _ hgr with h | h
      · rcases h3 with h3 | h3
        · exact Or.inl (h.trans h3)
        · exact Or.inr (h.trans h3)
      · exact Or.inr h

theorem runCtxOps_untouch_key (g : String) :
    ∀ (p : CtxProg) (m : CtxMap), g ∉ opKeys p →
      ctxLookup (runCtxOps p m) g = ctxLookup m g ∨
        ctxLookup (runCtxOps p m) g = none := by
  intro p
  induction p with
  | stop =>
    intro m _
    exact Or.inl rfl
  | add k0 v r ih =>
    intro m hg
    obtain ⟨h1, h2⟩ : g ≠ k0 ∧ g ∉ opKeys r := by
      rw [opKeys] at hg
      exact ⟨fun hc => hg (hc ▸ List.mem_cons_self k0 _), fun hc => hg (List.mem_cons_of_mem _ hc)⟩
    have := ih (ctxAdd k0 v m) h2
    rwa [ctxLookup_add_other _ _ _ _ h1] at this
  | remove k0 r ih =>
    intro m hg
    obtain ⟨h1, h2⟩ : g ≠ k0 ∧ g ∉ opKeys r := by
      rw [opKeys] at hg
      exact ⟨fun hc => hg (hc ▸ List.mem_cons_self k0 _), fun hc => hg (List.mem_cons_of_mem _ hc)⟩
    have := ih (ctxRemove k0 m) h2
    rwa [ctxLookup_remove_other _ _ _ h1] at this
  | clear r ih =>
    intro m hg
    rw [opKeys] at hg
    rcases ih (ctxClear m) hg with h | h
    · exact Or.inr h
    · exact Or.inr h
  | scope k0 v body r ihb ihr =>
    intro m hg
    have hgb : g ∉ opKeys body := by
      rw [opKeys] at hg
      exact fun hc => hg (List.mem_append_left _ hc)
    have hgr : g ∉ opKeys r := by
      rw [opKeys] at hg
      exact fun hc => hg (List.mem_append_right _ hc)
    rcases ihr (runCtxOps body m) hgr with h | h
    · rcases ihb m hgb with h2 | h2
      · exact Or.inl (h.trans h2)
      · exact Or.inr (h.trans h2)
    · exact Or.inr h

/-- Claim C8 (amended): for explicit add/remove/clear operations interleaved
with well-nested guard scopes whose keys are disjoint from the operations'
keys and absent from the initial map, the guard scopes leave no trace: the
map after all scopes exit equals the map produced by the explicit operations
alone.  (The literal claim, that the final map equals the map from before
any scope began, fails whenever the explicit operations themselves change
the map; see the counterexample.) -/
theorem ctx_scopes_transparent (p : CtxProg) (m0 : CtxMap)
    (hg : ∀ g ∈ guardKeys p, ctxLookup m0 g = none ∧ g ∉ opKeys p) :
    ∀ k, ctxLookup (runCtx p m0) k = ctxLookup (runCtxOps p m0) k := by
  intro k
  by_cases hk : k ∈ guardKeys p
  · obtain ⟨h0, hop⟩ := hg k hk
    have h1 := runCtx_untouch_key k p m0 hop
    have h2 := runCtxOps_untouch_key k p m0 hop
    rw [h0] at h1 h2
    rcases h1 with h1 | h1 <;> rcases h2 with h2 | h2 <;> rw [h1, h2]
  · exact runCtx_agree (guardKeys p) p m0 m0 (fun _ hx => hx) (fun _ _ => rfl) k hk

/-- Counterexample to C8 as stated: one guard scope on key "g" (disjoint
from every key the explicit operations touch) containing a single explicit
`add("a", "1")`; after the scope exits, "a" is mapped, while before any
scope began it was not — so the final map differs from the initial map. -/
theorem ctx_scopes_counterexample :
    (∀ g ∈ guardKeys (CtxProg.scope "g" "v" (.add "a" "1" .stop) .stop),
        g ∉ opKeys (CtxProg.scope "g" "v" (.add "a" "1" .stop) .stop)) ∧
    ctxLookup (runCtx (CtxProg.scope "g" "v" (.add "a" "1" .stop) .stop) []) "a" =
      some "1" ∧
    ctxLookup ([] : CtxMap) "a" = none := by
  exact ⟨by decide, by decide, rfl⟩

/-- Witness for the amended C8 at a concrete program and key. -/
theorem ctx_scopes_transparent_witness :
    ctxLookup
        (runCtx (CtxProg.scope "g" "v" (.add "a" "1" (.remove "b" .stop)) .stop) [("b", "2")])
        "g" =
      ctxLookup
        (runCtxOps (CtxProg.scope "g" "v" (.add "a" "1" (.remove "b" .stop)) .stop) [("b", "2")])
        "g" :=
  ctx_scopes_transparent (CtxProg.scope "g" "v" (.add "a" "1" (.remove "b" .stop)) .stop)
    [("b", "2")] (by decide) "g"

/-! ## Flowchart node and edge counts -/

theorem digitChar_injOn :
    ∀ a, a < 10 → ∀ b, b < 10 → digitChar a = digitChar b → a = b := by
  decide

theorem digitChar_lt_ten (l : List Nat) (hl : ∀ d ∈ l, d < 10) :
    ∀ l2 : List Nat, (∀ d ∈ l2, d < 10) →
      l.map digitChar = l2.map digitChar → l = l2 := by
  induction l with
  | nil =>
    intro l2 _ h
    cases l2 with
    | nil => rfl
    | cons b t2 => simp at h
  | cons a t ih =>
    intro l2 h2 h
    cases l2 with
    | nil => simp at h
    | cons b t2 =>
      simp only [List.map_cons, List.cons.injEq] at h
      have ha : a = b :=
        digitChar_injOn a (hl a (by simp)) b (h2 b (by simp)) h.1
      have ht : t = t2 :=
        ih (fun d hd => hl d (by simp [hd])) t2 (fun d hd => h2 d (by simp [hd])) h.2
      rw [ha, ht]

theorem digits_of_digitChars_zero (b : Nat) (hb : b ≠ 0)
    (h : digitChars b = ['0']) : False := by
  rw [digitChars, if_neg hb] at h
  have hmap : (Nat.digits 10 b).map digitChar = ['0'] := by
    have := congrArg List.reverse h
    simpa using this
  cases hd : Nat.digits 10 b with
  | nil => rw [hd] at hmap; simp at hmap
  | cons d ds =>
    rw [hd] at hmap
    simp only [List.map_cons, List.cons.injEq, List.map_eq_nil_iff] at hmap
    have hd10 : d < 10 := Nat.digits_lt_base (by norm_num) (by rw [hd]; simp)
    have hd0 : d = 0 := digitChar_injOn d hd10 0 (by norm_num) hmap.1
    have : b = Nat.ofDigits 10 (Nat.digits 10 b) := (Nat.ofDigits_digits 10 b).symm
    rw [hd, hd0, hmap.2] at this
    simp [Nat.ofDigits] at this
    exact hb this

theorem digitChars_injective (a b : Nat) (h : digitChars a = digitChars b) :
    a = b := by
  by_cases ha : a = 0 <;> by_cases hb : b = 0
  · rw [ha, hb]
  · exfalso
    rw [ha] at h
    exact digits_of_digitChars_zero b hb h.symm
  · exfalso
    rw [hb] at h
    exact digits_of_digitChars_zero a ha h
  · rw [digitChars, if_neg ha, digitChars, if_neg hb] at h
    have hmap : (Nat.digits 10 a).map digitChar = (Nat.digits 10 b).map digitChar :=
      List.reverse_injective h
    have hdig : Nat.digits 10 a = Nat.digits 10 b :=
      digitChar_lt_ten _ (fun d hd => Nat.digits_lt_base (by norm_num) hd) _
        (fun d hd => Nat.digits_lt_base (by norm_num) hd) hmap
    exact Nat.digits_inj_iff.mp hdig

theorem flowNodeId_injective (i j : Nat) (h : flowNodeId i = flowNodeId j) :
    i = j := by
  unfold flowNodeId at h
  have h2 : ['n', 'o', 'd', 'e'] ++ digitChars i = ['n', 'o', 'd', 'e'] ++ digitChars j :=
    congrArg String.data h
  exact digitChars_injective i j (List.append_cancel_left h2)

theorem flowchartEdges_length (t : List CNode) :
    (flowchartEdges t).length = (t.filter (fun n => n.parent.isSome)).length := by
  induction t with
  | nil => rfl
  | cons n rest ih =>
    cases hp : n.parent with
    | none =>
      simp only [flowchartEdges, List.filterMap_cons, List.filter_cons, hp,
        Option.map_none', Option.isSome_none, Bool.false_eq_true, if_false]
      exact ih
    | some q =>
      simp only [flowchartEdges, List.filterMap_cons, List.filter_cons, hp,
        Option.map_some', Option.isSome_some, if_true, List.length_cons]
      rw [← ih]
      rfl

/-- Claim C5: flowchart generation produces exactly one diagram node per
tracker node and exactly one diagram edge per parent-to-child relation, and
diagram node identifiers are derived injectively from tracker node ids, so
they stay distinct even when two components share a display name. -/
theorem flowchart_counts (t : List CNode) :
    (flowchartNodes t).length = t.length ∧
    (flowchartEdges t).length = (t.filter (fun n => n.parent.isSome)).length ∧
    (∀ i j : Nat, flowNodeId i = flowNodeId j → i = j) :=
  ⟨List.length_map t _, flowchartEdges_length t, flowNodeId_injective⟩

/-- Witness for C5: a two-node snapshot (same display name) yields two
diagram nodes, one edge, and the identifier equation at id 0 resolves to
id equality. -/
theorem flowchart_counts_witness :
    (flowchartNodes
        [{ id := 0, name := "op", parent := none, start := 0, stop := some 3 },
         { id := 1, name := "op", parent := some 0, start := 1, stop := some 2 }]).length = 2 ∧
    (flowchartEdges
        [{ id := 0, name := "op", parent := none, start := 0, stop := some 3 },
         { id := 1, name := "op", parent := some 0, start := 1, stop := some 2 }]).length = 1 ∧
    (0 : Nat) = 0 := by
  have h := flowchart_counts
    [{ id := 0, name := "op", parent := none, start := 0, stop := some 3 },
     { id := 1, name := "op", parent := some 0, start := 1, stop := some 2 }]
  exact ⟨h.1, by rw [h.2.1]; rfl, h.2.2 0 0 rfl⟩

/-! ## Gantt baseline and offsets -/

theorem foldr_min_start (init : Nat) (l : List CNode) :
    (l.foldr (fun m acc => min m.start acc) init ≤ init) ∧
    (∀ m ∈ l, l.foldr (fun m acc => min m.start acc) init ≤ m.start) := by
  induction l with
  | nil => exact ⟨Nat.le_refl init, by intro m hm; cases hm⟩
  | cons a l ih =>
    refine ⟨Nat.le_trans (Nat.min_le_right _ _) ih.1, ?_⟩
    intro m hm
    rcases List.mem_cons.mp hm with hm | hm
    · rw [hm]
      exact Nat.min_le_left _ _
    · exact Nat.le_trans (Nat.min_le_right _ _) (ih.2 m hm)

theorem foldr_min_attained (init : Nat) (l : List CNode) :
    l.foldr (fun m acc => min m.start acc) init = init ∨
    ∃ m ∈ l, l.foldr (fun m acc => min m.start acc) init = m.start := by
  induction l with
  | nil => exact Or.inl rfl
  | cons a l ih =>
    rcases Nat.le_total a.start (l.foldr (fun m acc => min m.start acc) init) with hle | hle
    · refine Or.inr ⟨a, by simp, ?_⟩
      simpa using Nat.min_eq_left hle
    · have hmin : List.foldr (fun m acc => min m.start acc) init (a :: l) =
          l.foldr (fun m acc => min m.start acc) init := by
        simpa using Nat.min_eq_right hle
      rcases ih with h | ⟨m, hm, hfold⟩
      · exact Or.inl (hmin.trans h)
      · exact Or.inr ⟨m, by simp [hm], hmin.trans hfold⟩

/-- Claim C6: for a non-empty snapshot, Gantt generation uses the minimum
start instant as baseline 0 (the baseline bounds every start from below and
is attained), every task's start offset is non-negative, and a completed
node's task has duration end minus start. -/
theorem gantt_baseline_offsets (t : List CNode) (hne : t ≠ []) :
    (∃ n ∈ t, n.start = ganttBaseline t) ∧
    (∀ n ∈ t, ganttBaseline t ≤ n.start) ∧
    (∀ task ∈ ganttTasks t, 0 ≤ task.startOffset) ∧
    (∀ n ∈ t, ∀ e, n.stop = some e →
      ({ taskName := n.name,
         startOffset := (n.start : Int) - (ganttBaseline t : Int),
         duration := some ((e : Int) - (n.start : Int)) } : GanttTask) ∈ ganttTasks t) := by
  have hle : ∀ n ∈ t, ganttBaseline t ≤ n.start := by
    intro n hn
    cases t with
    | nil => cases hn
    | cons a l =>
      rcases List.mem_cons.mp hn with h | h
      · rw [h, ganttBaseline]
        exact (foldr_min_start a.start l).1
      · exact (foldr_min_start a.start l).2 n h
  refine ⟨?_, hle, ?_, ?_⟩
  · cases t with
    | nil => exact absurd rfl hne
    | cons a l =>
      rcases foldr_min_attained a.start l with h | ⟨m, hm, hfold⟩
      · exact ⟨a, by simp, h.symm⟩
      · exact ⟨m, by simp [hm], hfold.symm⟩
  · intro task htask
    rcases List.mem_map.mp htask with ⟨n, hn, hrw⟩
    rw [← hrw]
    have : (ganttBaseline t : Int) ≤ (n.start : Int) := Int.ofNat_le.mpr (hle n hn)
    simpa using Int.sub_nonneg.mpr this
  · intro n hn e he
    have hmem :
        ({ taskName := n.name,
           startOffset := (n.start : Int) - (ganttBaseline t : Int),
           duration := n.stop.map (fun e2 => (e2 : Int) - (n.start : Int)) } : GanttTask) ∈
          ganttTasks t :=
      List.mem_map_of_mem _ hn
    rw [he] at hmem
    simpa using hmem

/-- Witness for C6 at a concrete two-node snapshot. -/
theorem gantt_baseline_offsets_witness :
    ganttBaseline
      [{ id := 0, name := "a", parent := none, start := 4, stop := some 9 },
       { id := 1, name := "b", parent := some 0, start := 6, stop := none }] = 4 ∧
    (∀ task ∈ ganttTasks
      [{ id := 0, name := "a", parent := none, start := 4, stop := some 9 },
       { id := 1, name := "b", parent := some 0, start := 6, stop := none }],
      0 ≤ task.startOffset) ∧
    ({ taskName := "a", startOffset := ((4 : Nat) : Int) - ((4 : Nat) : Int),
       duration := some (((9 : Nat) : Int) - ((4 : Nat) : Int)) } : GanttTask) ∈
      ganttTasks
        [{ id := 0, name := "a", parent := none, start := 4, stop := some 9 },
         { id := 1, name := "b", parent := some 0, start := 6, stop := none }] := by
  have h := gantt_baseline_offsets
    [{ id := 0, name := "a", parent := none, start := 4, stop := some 9 },
     { id := 1, name := "b", parent := some 0, start := 6, stop := none }]
    (by decide)
  refine ⟨rfl, h.2.2.1, ?_⟩
  have := h.2.2.2
    { id := 0, name := "a", parent := none, start := 4, stop := some 9 }
    (by simp) 9 rfl
  simpa using this

/-! ## Python binding dispatch -/

/-- Claim C10: `Logger::log_with` lowercases the level string; the seven
recognized spellings dispatch to the corresponding structured-log method
with the message and data unchanged and return Ok, and every other string
performs no logging and returns a PyValueError naming the invalid level. -/
theorem log_with_dispatch (level msg : String) (data : List (String × String)) :
    (toLowerAscii level = "debug" →
        log_with level msg data = .ok (.debugWith, msg, data)) ∧
    (toLowerAscii level = "info" →
        log_with level msg data = .ok (.infoWith, msg, data)) ∧
    (toLowerAscii level = "warning" ∨ toLowerAscii level = "warn" →
        log_with level msg data = .ok (.warningWith, msg, data)) ∧
    (toLowerAscii level = "error" →
        log_with level msg data = .ok (.errorWith, msg, data)) ∧
    (toLowerAscii level = "critical" ∨ toLowerAscii level = "crit" →
        log_with level msg data = .ok (.criticalWith, msg, data)) ∧
    (toLowerAscii level ∉
        ["debug", "info", "warning", "warn", "error", "critical", "crit"] →
        log_with level msg data = .error ("Invalid log level: " ++ level)) := by
  refine ⟨?_, ?_, ?_, ?_, ?_, ?_⟩
  · intro h
    simp [log_with, h]
  · intro h
    simp [log_with, h]
  · rintro (h | h) <;> simp [log_with, h]
  · intro h
    simp [log_with, h]
  · rintro (h | h) <;> simp [log_with, h]
  · intro h
    simp only [List.mem_cons, List.not_mem_nil, or_false, not_or] at h
    obtain ⟨h1, h2, h3, h4, h5, h6, h7⟩ := h
    unfold log_with
    split <;> simp_all

/-- Witness for C10: "WARN" dispatches to the warning method with payload
unchanged, and "fatal" is rejected with the error message naming it. -/
theorem log_with_dispatch_witness :
    log_with "WARN" "m" [("a", "b")] = .ok (.warningWith, "m", [("a", "b")]) ∧
    log_with "fatal" "m" [] = .error ("Invalid log level: " ++ "fatal") := by
  constructor
  · exact (log_with_dispatch "WARN" "m" [("a", "b")]).2.2.1 (Or.inr (by decide))
  · exact (log_with_dispatch "fatal" "m" []).2.2.2.2.2 (by decide)

/-! ## Component tracker: table and stack helper lemmas -/

theorem setStop_getElem? (i e : Nat) (t : List CNode) (j : Nat) :
    (setStop i e t)[j]? =
      (t[j]?).map (fun n => if n.id = i then { n with stop := some e } else n) := by
  rw [setStop, List.getElem?_map]

theorem setStop_length (i e : Nat) (t : List CNode) :
    (setStop i e t).length = t.length := by
  rw [setStop, List.length_map]

theorem parentOf_setStop (i e : Nat) (t : List CNode) (j : Nat) :
    parentOf (setStop i e t) j = parentOf t j := by
  rw [parentOf, parentOf, setStop_getElem?]
  cases t[j]? with
  | none => rfl
  | some n =>
    by_cases h : n.id = i <;> simp [h]

theorem parentOf_append_left (t t2 : List CNode) (j : Nat) (h : j < t.length) :
    parentOf (t ++ t2) j = parentOf t j := by
  rw [parentOf, parentOf, List.getElem?_append_left h]

theorem mem_id_lt (t : List CNode) (hids : ∀ (i : Nat) (n : CNode), t[i]? = some n → n.id = i)
    (n : CNode) (hn : n ∈ t) : n.id < t.length := by
  obtain ⟨i, hi, hget⟩ := List.mem_iff_getElem.mp hn
  have : t[i]? = some n := by
    rw [List.getElem?_eq_getElem hi, hget]
  rw [hids i n this]
  exact hi

theorem mem_getElem?_self (t : List CNode) (hids : ∀ (i : Nat) (n : CNode), t[i]? = some n → n.id = i)
    (n : CNode) (hn : n ∈ t) : t[n.id]? = some n := by
  obtain ⟨i, hi, hget⟩ := List.mem_iff_getElem.mp hn
  have h : t[i]? = some n := by
    rw [List.getElem?_eq_getElem hi, hget]
  rw [hids i n h]
  exact h

theorem mem_id_unique (t : List CNode) (hids : ∀ (i : Nat) (n : CNode), t[i]? = some n → n.id = i)
    (n m : CNode) (hn : n ∈ t) (hm : m ∈ t) (h : n.id = m.id) : n = m := by
  have h1 := mem_getElem?_self t hids n hn
  have h2 := mem_getElem?_self t hids m hm
  rw [h] at h1
  exact Option.some.inj (h1.symm.trans h2)

theorem ids_ge_of_append (a b : List CNode)
    (hids : ∀ (j : Nat) (n : CNode), (a ++ b)[j]? = some n → n.id = j) :
    ∀ n ∈ b, a.length ≤ n.id := by
  intro n hn
  obtain ⟨j, hj, hget⟩ := List.mem_iff_getElem.mp hn
  have h : (a ++ b)[a.length + j]? = some n := by
    rw [List.getElem?_append_right (Nat.le_add_right _ _), Nat.add_sub_cancel_left,
      List.getElem?_eq_getElem hj, hget]
  rw [hids _ n h]
  exact Nat.le_add_right _ _

theorem stackOK_congr (t t2 : List CNode) (l : List Nat)
    (h : ∀ s ∈ l, parentOf t2 s = parentOf t s) : StackOK t l → StackOK t2 l := by
  induction l with
  | nil => intro _; trivial
  | cons s rest ih =>
    intro hok
    obtain ⟨h1, h2, h3⟩ := hok
    exact ⟨(h s (List.mem_cons_self s rest)).trans h1, h2,
      ih (fun x hx => h x (List.mem_cons_of_mem _ hx)) h3⟩

theorem setStop_of_ne (i e : Nat) (t : List CNode) (h : ∀ n ∈ t, n.id ≠ i) :
    setStop i e t = t := by
  rw [setStop]
  refine (List.map_congr_left ?_).trans (List.map_id t)
  intro n hn
  rw [if_neg (h n hn)]
  rfl

theorem setStop_append (i e : Nat) (a b : List CNode) :
    setStop i e (a ++ b) = setStop i e a ++ setStop i e b := by
  rw [setStop, setStop, setStop, List.map_append]

/-! ## Parent-chain depth lemmas -/

theorem parentDec_of_TInv (st : TrackerState) (h : TInv st) :
    ∀ j q, parentOf st.table j = some q → q < j := by
  intro j q hpq
  rw [parentOf] at hpq
  cases hj : st.table[j]? with
  | none => rw [hj] at hpq; cases hpq
  | some n =>
    rw [hj] at hpq
    have hmem : n ∈ st.table := List.getElem?_mem hj
    have hid : n.id = j := h.ids j n hj
    have := (h.parentRel n hmem q hpq).1
    rw [hid] at this
    exact this

theorem parentOf_eq (t : List CNode) (i : Nat) (n : CNode) (h : t[i]? = some n) :
    parentOf t i = n.parent := by
  rw [parentOf, h]
  rfl

theorem chainLen_of_none (t : List CNode) (f i : Nat) (h : t[i]? = none) :
    chainLen t (f + 1) i = 0 := by
  simp only [chainLen, h]

theorem chainLen_of_root (t : List CNode) (f i : Nat) (n : CNode)
    (h : t[i]? = some n) (hp : n.parent = none) : chainLen t (f + 1) i = 1 := by
  simp only [chainLen, h, hp]

theorem chainLen_of_parent (t : List CNode) (f i : Nat) (n : CNode) (q : Nat)
    (h : t[i]? = some n) (hp : n.parent = some q) :
    chainLen t (f + 1) i = 1 + chainLen t f q := by
  simp only [chainLen, h, hp]

theorem chainLen_fuel (t : List CNode)
    (hdec : ∀ j q, parentOf t j = some q → q < j) :
    ∀ i fuel, i < fuel → chainLen t fuel i = depthAt t i := by
  intro i
  induction i using Nat.strong_induction_on with
  | _ i ih =>
    intro fuel hfuel
    obtain ⟨f, rfl⟩ : ∃ f, fuel = f + 1 :=
      ⟨fuel - 1, (Nat.succ_pred_eq_of_pos (Nat.lt_of_le_of_lt (Nat.zero_le i) hfuel)).symm⟩
    rw [depthAt]
    cases ht : t[i]? with
    | none => rw [chainLen_of_none t f i ht, chainLen_of_none t i i ht]
    | some n =>
      cases hp : n.parent with
      | none => rw [chainLen_of_root t f i n ht hp, chainLen_of_root t i i n ht hp]
      | some q =>
        have hq : q < i := hdec i q (by rw [parentOf_eq t i n ht]; exact hp)
        have h1 : chainLen t f q = depthAt t q :=
          ih q hq f (Nat.lt_of_lt_of_le hq (Nat.le_of_lt_succ hfuel))
        have h2 : chainLen t i q = depthAt t q := ih q hq i hq
        rw [chainLen_of_parent t f i n q ht hp, chainLen_of_parent t i i n q ht hp, h1, h2]

theorem chainLen_congr (t t2 : List CNode) (B : Nat)
    (hdec : ∀ j q, parentOf t j = some q → q < j)
    (hpar : ∀ j, j < B → parentOf t2 j = parentOf t j)
    (hex : ∀ j, j < B → (t2[j]?).isSome = (t[j]?).isSome) :
    ∀ fuel i, i < B → chainLen t2 fuel i = chainLen t fuel i := by
  intro fuel
  induction fuel with
  | zero => intro i _; rfl
  | succ f ih =>
    intro i hi
    cases ht : t[i]? with
    | none =>
      have hs : (t2[i]?).isSome = false := by
        rw [hex i hi, ht]
        rfl
      cases ht2 : t2[i]? with
      | none => rw [chainLen_of_none t2 f i ht2, chainLen_of_none t f i ht]
      | some n2 => rw [ht2] at hs; cases hs
    | some n =>
      have hsome : (t2[i]?).isSome = true := by
        rw [hex i hi, ht]
        rfl
      cases ht2 : t2[i]? with
      | none => rw [ht2] at hsome; cases hsome
      | some n2 =>
        have hpe : n2.parent = n.parent := by
          have h := hpar i hi
          rw [parentOf_eq t2 i n2 ht2, parentOf_eq t i n ht] at h
          exact h
        cases hp : n.parent with
        | none =>
          rw [chainLen_of_root t2 f i n2 ht2 (hpe.trans hp),
            chainLen_of_root t f i n ht hp]
        | some q =>
          have hq : q < i := hdec i q (by rw [parentOf_eq t i n ht]; exact hp)
          rw [chainLen_of_parent t2 f i n2 q ht2 (hpe.trans hp),
            chainLen_of_parent t f i n q ht hp, ih q (Nat.lt_trans hq hi)]

theorem depthAt_congr (t t2 : List CNode) (B : Nat)
    (hdec : ∀ j q, parentOf t j = some q → q < j)
    (hpar : ∀ j, j < B → parentOf t2 j = parentOf t j)
    (hex : ∀ j, j < B → (t2[j]?).isSome = (t[j]?).isSome)
    (i : Nat) (hi : i < B) : depthAt t2 i = depthAt t i :=
  chainLen_congr t t2 B hdec hpar hex (i + 1) i hi

theorem stackOK_depth (t : List CNode)
    (hdec : ∀ j q, parentOf t j = some q → q < j) :
    ∀ (l : List Nat), StackOK t l → (∀ s ∈ l, s < t.length) →
      ∀ s ss, l = s :: ss → depthAt t s = l.length := by
  intro l
  induction l with
  | nil =>
    intro _ _ s ss h
    cases h
  | cons s0 rest ih =>
    intro hok hlt s ss heq
    obtain ⟨hp, hx, hrest⟩ := hok
    obtain ⟨rfl, rfl⟩ : s0 = s ∧ rest = ss := by
      injection heq with h1 h2
      exact ⟨h1, h2⟩
    have hs : s0 < t.length := hlt s0 (List.mem_cons_self s0 rest)
    have hts : t[s0]? = some t[s0] := List.getElem?_eq_getElem hs
    have hparent : t[s0].parent = rest.head? := by
      rw [parentOf_eq t s0 _ hts] at hp
      exact hp
    cases rest with
    | nil =>
      rw [depthAt, chainLen_of_root t s0 s0 _ hts hparent]
      rfl
    | cons s1 rest2 =>
      have hps1 : t[s0].parent = some s1 := hparent
      have hs1lt : s1 < s0 := by
        refine hdec s0 s1 ?_
        rw [parentOf_eq t s0 _ hts]
        exact hps1
      have hdepth : depthAt t s1 = (s1 :: rest2).length :=
        ih hrest (fun x hx2 => hlt x (List.mem_cons_of_mem _ hx2)) s1 rest2 rfl
      rw [depthAt, chainLen_of_parent t s0 s0 _ s1 hts hps1,
        chainLen_fuel t hdec s1 s0 hs1lt, hdepth]
      simp only [List.length_cons]
      omega

theorem depthMax_cons (t : List CNode) (n : CNode) (ns : List CNode) :
    depthMax t (n :: ns) = max (depthAt t n.id) (depthMax t ns) := rfl

theorem depthMax_append (t : List CNode) (a b : List CNode) :
    depthMax t (a ++ b) = max (depthMax t a) (depthMax t b) := by
  induction a with
  | nil =>
    show depthMax t b = max 0 (depthMax t b)
    rw [Nat.zero_max]
  | cons n a2 ih =>
    rw [List.cons_append, depthMax_cons, depthMax_cons, ih, Nat.max_assoc]

theorem depthMax_congr (t t2 : List CNode) (ns : List CNode)
    (h : ∀ n ∈ ns, depthAt t2 n.id = depthAt t n.id) :
    depthMax t2 ns = depthMax t ns := by
  induction ns with
  | nil => rfl
  | cons n ns2 ih =>
    rw [depthMax_cons, depthMax_cons, h n (List.mem_cons_self n ns2),
      ih (fun m hm => h m (List.mem_cons_of_mem _ hm))]

/-! ## Guard steps preserve the tracker invariants -/

theorem openComp_TInv (name : String) (st : TrackerState) (hinv : TInv st) :
    TInv (openComp name st) := by
  set L := st.table.length with hL
  set act : CNode :=
    { id := L, name := name, parent := st.stack.head?, start := st.clock, stop := none }
    with hact
  have htab : (openComp name st).table = st.table ++ [act] := rfl
  have hstk : (openComp name st).stack = L :: st.stack := rfl
  have hclk : (openComp name st).clock = st.clock + 1 := rfl
  have hmem_lt : ∀ n ∈ st.table, n.id < L := fun n hn => mem_id_lt st.table hinv.ids n hn
  have hmemsplit : ∀ n ∈ (openComp name st).table, n ∈ st.table ∨ n = act := by
    intro n hn
    rw [htab] at hn
    rcases List.mem_append.mp hn with h | h
    · exact Or.inl h
    · exact Or.inr (List.mem_singleton.mp h)
  refine ⟨?_, ?_, ?_, ?_, ?_, ?_, ?_⟩
  · -- ids
    intro i n hi
    rw [htab] at hi
    by_cases h : i < L
    · rw [List.getElem?_append_left h] at hi
      exact hinv.ids i n hi
    · have hle : L ≤ i := Nat.le_of_not_lt h
      rw [List.getElem?_append_right hle] at hi
      have hlen : i - L < 1 := by
        have := (List.getElem?_eq_some.mp hi).1
        simpa using this
      have h0 : i - L = 0 := Nat.lt_one_iff.mp hlen
      rw [h0] at hi
      have hna : n = act := by
        have : some act = some n := by
          rw [← hi]
          rfl
        exact (Option.some.inj this).symm
      rw [hna]
      have hidL : act.id = L := rfl
      omega
  · -- startLt
    intro n hn
    rw [hclk]
    rcases hmemsplit n hn with h | h
    · exact Nat.lt_succ_of_lt (hinv.startLt n h)
    · rw [h, hact]
      exact Nat.lt_succ_self _
  · -- stopBound
    intro n hn e he
    rw [hclk]
    rcases hmemsplit n hn with h | h
    · obtain ⟨h1, h2⟩ := hinv.stopBound n h e he
      exact ⟨h1, Nat.lt_succ_of_lt h2⟩
    · rw [h] at he
      cases he
  · -- activeIff
    intro n hn
    rw [hstk]
    rcases hmemsplit n hn with h | h
    · have hiff := hinv.activeIff n h
      have hne : n.id ≠ L := Nat.ne_of_lt (hmem_lt n h)
      constructor
      · intro hnone
        exact List.mem_cons_of_mem _ (hiff.mp hnone)
      · intro hmem
        rcases List.mem_cons.mp hmem with hc | hc
        · exact absurd hc hne
        · exact hiff.mpr hc
    · rw [h, hact]
      exact ⟨fun _ => List.mem_cons_self _ _, fun _ => rfl⟩
  · -- stackLt
    intro s hs
    have hlen1 : (openComp name st).table.length = L + 1 := by
      rw [htab, List.length_append]
      rfl
    rw [hlen1]
    rcases List.mem_cons.mp (by rw [hstk] at hs; exact hs) with h | h
    · omega
    · have := hinv.stackLt s h
      omega
  · -- sOK
    rw [hstk, htab]
    have hpL : parentOf (st.table ++ [act]) L = st.stack.head? := by
      rw [parentOf, List.getElem?_append_right (Nat.le_refl L), Nat.sub_self]
      rfl
    refine ⟨hpL, fun x hx => hinv.stackLt x hx, ?_⟩
    refine stackOK_congr st.table _ st.stack ?_ hinv.sOK
    intro s hs
    exact parentOf_append_left st.table [act] s (hinv.stackLt s hs)
  · -- parentRel
    intro n hn q hq
    rcases hmemsplit n hn with h | h
    · obtain ⟨hlt, hrest⟩ := hinv.parentRel n h q hq
      refine ⟨hlt, ?_⟩
      intro m hm hmid
      rcases hmemsplit m hm with h2 | h2
      · exact hrest m h2 hmid
      · exfalso
        have : m.id = L := by rw [h2, hact]
        have hnid : n.id < L := hmem_lt n h
        omega
    · -- n is the new node: parent is the old stack head
      have hq2 : st.stack.head? = some q := by
        rw [h, hact] at hq
        exact hq
      have hqmem : q ∈ st.stack := by
        cases hst : st.stack with
        | nil =>
          rw [hst] at hq2
          cases hq2
        | cons a l =>
          rw [hst] at hq2
          have : a = q := by
            injection hq2 with h3
          rw [← this]
          exact List.mem_cons_self _ _
      have hqlt : q < L := hinv.stackLt q hqmem
      have hnid : n.id = L := by rw [h, hact]
      refine ⟨by omega, ?_⟩
      intro m hm hmid
      rcases hmemsplit m hm with h2 | h2
      · constructor
        · have : m.start < st.clock := hinv.startLt m h2
          have : n.start = st.clock := by rw [h, hact]
          omega
        · intro e he
          rw [h, hact] at he
          cases he
      · exfalso
        have : m.id = L := by rw [h2, hact]
        omega

theorem closeComp_TInv (st : TrackerState) (hinv : TInv st) :
    TInv (closeComp st) := by
  cases hstk : st.stack with
  | nil =>
    have : closeComp st = st := by
      rw [closeComp, hstk]
    rw [this]
    exact hinv
  | cons i rest =>
    have hclose : closeComp st =
        { table := setStop i st.clock st.table, stack := rest, clock := st.clock + 1 } := by
      rw [closeComp, hstk]
    obtain ⟨hpTop, hxTop, hrestOK⟩ : parentOf st.table i = rest.head? ∧
        (∀ x ∈ rest, x < i) ∧ StackOK st.table rest := by
      have := hinv.sOK
      rw [hstk] at this
      exact this
    have himem : i ∈ st.stack := by
      rw [hstk]
      exact List.mem_cons_self _ _
    have hilt : i < st.table.length := hinv.stackLt i himem
    have hti : st.table[i]? = some st.table[i] := List.getElem?_eq_getElem hilt
    set ni := st.table[i] with hni
    have hniid : ni.id = i := hinv.ids i ni hti
    have hnimem : ni ∈ st.table := List.getElem?_mem hti
    have hnistop : ni.stop = none := by
      refine (hinv.activeIff ni hnimem).mpr ?_
      rw [hniid]
      exact himem
    have hid_eq_ni : ∀ n ∈ st.table, n.id = i → n = ni :=
      fun n hn hnid => mem_id_unique st.table hinv.ids n ni hn hnimem (hnid.trans hniid.symm)
    set g : CNode → CNode :=
      fun n => if n.id = i then { n with stop := some st.clock } else n with hg
    have htab : (closeComp st).table = st.table.map g := by
      rw [hclose]
      rfl
    have hmemsplit : ∀ n ∈ (closeComp st).table, ∃ n0 ∈ st.table, n = g n0 := by
      intro n hn
      rw [htab] at hn
      obtain ⟨n0, hn0, hgn0⟩ := List.mem_map.mp hn
      exact ⟨n0, hn0, hgn0.symm⟩
    have hg_id : ∀ n0 : CNode, (g n0).id = n0.id := by
      intro n0
      rw [hg]
      by_cases h : n0.id = i <;> simp [h]
    have hg_start : ∀ n0 : CNode, (g n0).start = n0.start := by
      intro n0
      rw [hg]
      by_cases h : n0.id = i <;> simp [h]
    have hg_parent : ∀ n0 : CNode, (g n0).parent = n0.parent := by
      intro n0
      rw [hg]
      by_cases h : n0.id = i <;> simp [h]
    have hg_stop_ne : ∀ n0 : CNode, n0.id ≠ i → (g n0).stop = n0.stop := by
      intro n0 h
      rw [hg]
      simp [h]
    have hg_stop_eq : ∀ n0 : CNode, n0.id = i → (g n0).stop = some st.clock := by
      intro n0 h
      rw [hg]
      simp [h]
    have hstk2 : (closeComp st).stack = rest := by rw [hclose]
    have hclk2 : (closeComp st).clock = st.clock + 1 := by rw [hclose]
    have hget : ∀ (j : Nat) (n : CNode), (closeComp st).table[j]? = some n →
        ∃ n0, st.table[j]? = some n0 ∧ n = g n0 := by
      intro j n hj
      rw [htab, List.getElem?_map] at hj
      cases hj0 : st.table[j]? with
      | none => rw [hj0] at hj; cases hj
      | some n0 =>
        rw [hj0] at hj
        exact ⟨n0, rfl, (Option.some.inj hj).symm⟩
    refine ⟨?_, ?_, ?_, ?_, ?_, ?_, ?_⟩
    · -- ids
      intro j n hj
      obtain ⟨n0, hj0, rfl⟩ := hget j n hj
      rw [hg_id]
      exact hinv.ids j n0 hj0
    · -- startLt
      intro n hn
      obtain ⟨n0, hn0, rfl⟩ := hmemsplit n hn
      rw [hclk2, hg_start]
      exact Nat.lt_succ_of_lt (hinv.startLt n0 hn0)
    · -- stopBound
      intro n hn e he
      obtain ⟨n0, hn0, rfl⟩ := hmemsplit n hn
      rw [hclk2, hg_start]
      by_cases h : n0.id = i
      · rw [hg_stop_eq n0 h] at he
        have he2 : e = st.clock := (Option.some.inj he).symm
        have : n0.start < st.clock := hinv.startLt n0 hn0
        omega
      · rw [hg_stop_ne n0 h] at he
        obtain ⟨h1, h2⟩ := hinv.stopBound n0 hn0 e he
        omega
    · -- activeIff
      intro n hn
      obtain ⟨n0, hn0, rfl⟩ := hmemsplit n hn
      rw [hstk2, hg_id]
      by_cases h : n0.id = i
      · rw [hg_stop_eq n0 h]
        constructor
        · intro hc
          cases hc
        · intro hc
          rw [h] at hc
          exact absurd rfl (Nat.ne_of_lt (hxTop i hc))
      · rw [hg_stop_ne n0 h]
        have hiff := hinv.activeIff n0 hn0
        rw [hstk] at hiff
        constructor
        · intro hnone
          rcases List.mem_cons.mp (hiff.mp hnone) with hc | hc
          · exact absurd hc h
          · exact hc
        · intro hmem
          exact hiff.mpr (List.mem_cons_of_mem _ hmem)
    · -- stackLt
      intro s hs
      rw [hstk2] at hs
      rw [htab, List.length_map]
      exact hinv.stackLt s (by rw [hstk]; exact List.mem_cons_of_mem _ hs)
    · -- sOK
      rw [hstk2]
      refine stackOK_congr st.table _ rest ?_ hrestOK
      intro s _
      rw [htab]
      show parentOf (setStop i st.clock st.table) s = parentOf st.table s
      exact parentOf_setStop i st.clock st.table s
    · -- parentRel
      intro n hn q hq
      obtain ⟨n0, hn0, rfl⟩ := hmemsplit n hn
      rw [hg_parent] at hq
      obtain ⟨hlt, hrel⟩ := hinv.parentRel n0 hn0 q hq
      rw [hg_id]
      refine ⟨hlt, ?_⟩
      intro m hm hmid
      obtain ⟨m0, hm0, rfl⟩ := hmemsplit m hm
      rw [hg_id] at hmid
      obtain ⟨hstart, hstop⟩ := hrel m0 hm0 hmid
      rw [hg_start, hg_start]
      refine ⟨hstart, ?_⟩
      intro e he
      by_cases hcn : n0.id = i
      · -- the closed node's parent must still be active
        have hn0ni : n0 = ni := hid_eq_ni n0 hn0 hcn
        have hqhead : rest.head? = some q := by
          rw [← hpTop, parentOf_eq st.table i ni hti, ← hn0ni]
          exact hq
        have hqrest : q ∈ rest := by
          cases hr : rest with
          | nil => rw [hr] at hqhead; cases hqhead
          | cons a l =>
            rw [hr] at hqhead
            have : a = q := by injection hqhead with h3
            rw [← this]
            exact List.mem_cons_self _ _
        have hm0stop : m0.stop = none := by
          refine (hinv.activeIff m0 hm0).mpr ?_
          rw [hmid, hstk]
          exact List.mem_cons_of_mem _ hqrest
        have hm0ne : m0.id ≠ i := by
          rw [hmid]
          exact Nat.ne_of_lt (hxTop q hqrest)
        rw [hg_stop_ne m0 hm0ne, hm0stop]
        exact Or.inl rfl
      · rw [hg_stop_ne n0 hcn] at he
        by_cases hcm : m0.id = i
        · -- the parent is the node being closed now
          obtain ⟨_, h2⟩ := hinv.stopBound n0 hn0 e he
          rw [hg_stop_eq m0 hcm]
          exact Or.inr ⟨st.clock, rfl, h2⟩
        · rw [hg_stop_ne m0 hcm]
          exact hstop e he

/-! ## The run lemma: a balanced program grows the table by its guard count,
restores the stack, preserves the invariants, and the new nodes' maximal
tree depth is the ambient stack depth plus the program's nesting depth. -/

theorem runComp_spec : ∀ (p : CompProg) (st : TrackerState), TInv st →
    ∃ new : List CNode,
      (runComp p st).table = st.table ++ new ∧
      (runComp p st).stack = st.stack ∧
      (runComp p st).clock = st.clock + 2 * scopeCount p ∧
      new.length = scopeCount p ∧
      TInv (runComp p st) ∧
      (p = .stop → new = []) ∧
      (p ≠ .stop →
        depthMax (runComp p st).table new = st.stack.length + progDepth p) := by
  intro p
  induction p with
  | stop =>
    intro st hinv
    refine ⟨[], by rw [runComp, List.append_nil], rfl, ?_, rfl, hinv, fun _ => rfl,
      fun h => absurd rfl h⟩
    show st.clock = st.clock + 2 * scopeCount CompProg.stop
    rw [scopeCount]
    omega
  | scope nm body rest ihb ihr =>
    intro st hinv
    simp only [runComp]
    set T1 := openComp nm st with hT1def
    set T2 := runComp body T1 with hT2def
    set T3 := closeComp T2 with hT3def
    set T4 := runComp rest T3 with hT4def
    set L := st.table.length with hLdef
    set act : CNode :=
      { id := L, name := nm, parent := st.stack.head?, start := st.clock, stop := none }
      with hact
    have hinv1 : TInv T1 := openComp_TInv nm st hinv
    obtain ⟨bNew, hbT, hbS, hbC, hbL, hbI, hbE, hbD⟩ := ihb T1 hinv1
    rw [← hT2def] at hbT hbS hbC hbI hbD
    have hstk2 : T2.stack = L :: st.stack := by
      rw [hbS]
      rfl
    have hinv3 : TInv T3 := closeComp_TInv T2 hbI
    obtain ⟨rNew, hrT, hrS, hrC, hrL, hrI, hrE, hrD⟩ := ihr T3 hinv3
    rw [← hT4def] at hrT hrS hrC hrI hrD
    have hclose : T3 =
        { table := setStop L T2.clock T2.table,
          stack := st.stack, clock := T2.clock + 1 } := by
      rw [hT3def, closeComp, hstk2]
    have hT3table : T3.table = setStop L T2.clock T2.table := by rw [hclose]
    have hT3stack : T3.stack = st.stack := by rw [hclose]
    have hT3clock : T3.clock = T2.clock + 1 := by rw [hclose]
    set closedAct : CNode :=
      { id := L, name := nm, parent := st.stack.head?, start := st.clock, stop := some T2.clock }
      with hclosed
    have hT1table : T1.table = st.table ++ [act] := rfl
    have hT1clock : T1.clock = st.clock + 1 := rfl
    have hT1stackLen : T1.stack.length = st.stack.length + 1 := rfl
    have hT2tab : T2.table = (st.table ++ [act]) ++ bNew := by
      rw [hbT, hT1table]
    have hneOld : ∀ n ∈ st.table, n.id ≠ L :=
      fun n hn => Nat.ne_of_lt (mem_id_lt st.table hinv.ids n hn)
    have hids2 : ∀ (j : Nat) (n : CNode), ((st.table ++ [act]) ++ bNew)[j]? = some n → n.id = j := by
      intro j n hj
      refine hbI.ids j n ?_
      rw [hT2tab]
      exact hj
    have hgeNew : ∀ n ∈ bNew, (st.table ++ [act]).length ≤ n.id :=
      ids_ge_of_append (st.table ++ [act]) bNew hids2
    have hneNew : ∀ n ∈ bNew, n.id ≠ L := by
      intro n hn
      have h1 := hgeNew n hn
      rw [List.length_append, List.length_singleton] at h1
      intro hc
      rw [hc, hLdef] at h1
      omega
    have hsingle : setStop L T2.clock [act] = [closedAct] := by
      rw [setStop, List.map_cons, List.map_nil, if_pos (show act.id = L from rfl)]
    have hT3tab : T3.table = st.table ++ (closedAct :: bNew) := by
      rw [hT3table, hT2tab, setStop_append, setStop_append,
        setStop_of_ne _ _ st.table hneOld, setStop_of_ne _ _ bNew hneNew, hsingle,
        List.append_assoc]
      rfl
    have hT4tab : T4.table = st.table ++ (closedAct :: (bNew ++ rNew)) := by
      rw [hrT, hT3tab, List.append_assoc]
      rfl
    refine ⟨closedAct :: (bNew ++ rNew), hT4tab, ?_, ?_, ?_, hrI, ?_, ?_⟩
    · rw [hrS, hT3stack]
    · rw [hrC, hT3clock, hbC, hT1clock, scopeCount]
      omega
    · rw [List.length_cons, List.length_append, hbL, hrL, scopeCount]
      omega
    · intro h
      cases h
    · intro _
      -- depth of the new nodes
      have hdec4 : ∀ j q, parentOf T4.table j = some q → q < j := parentDec_of_TInv T4 hrI
      have hT4getL : T4.table[L]? = some closedAct := by
        rw [hT4tab, List.getElem?_append_right (Nat.le_refl _)]
        rw [← hLdef, Nat.sub_self, List.getElem?_cons_zero]
      have hparClosed : closedAct.parent = st.stack.head? := rfl
      have hstackLtT4 : ∀ x ∈ st.stack, x < T4.table.length := by
        intro x hx
        have h1 := hinv.stackLt x hx
        rw [hT4tab, List.length_append]
        omega
      have hparT4old : ∀ x ∈ st.stack, parentOf T4.table x = parentOf st.table x := by
        intro x hx
        rw [hT4tab]
        exact parentOf_append_left st.table _ x (hinv.stackLt x hx)
      have hdepthL : depthAt T4.table L = st.stack.length + 1 := by
        cases hss : st.stack with
        | nil =>
          have hpar : closedAct.parent = none := by
            rw [hparClosed, hss]
            rfl
          rw [depthAt, chainLen_of_root T4.table L L closedAct hT4getL hpar]
          rfl
        | cons s ss =>
          have hpar : closedAct.parent = some s := by
            rw [hparClosed, hss]
            rfl
          have hsL : s < L := hinv.stackLt s (by rw [hss]; exact List.mem_cons_self _ _)
          have hOK4 : StackOK T4.table st.stack :=
            stackOK_congr st.table T4.table st.stack hparT4old hinv.sOK
          have hds : depthAt T4.table s = st.stack.length := by
            have h := stackOK_depth T4.table hdec4 st.stack hOK4 hstackLtT4 s ss hss
            rw [h]
          rw [depthAt, chainLen_of_parent T4.table L L closedAct s hT4getL hpar,
            chainLen_fuel T4.table hdec4 s L hsL, hds, hss]
          rw [List.length_cons]
          omega
      -- transfer the body sub-run's depths from T2's table to T4's table
      have hdec2 : ∀ j q, parentOf T2.table j = some q → q < j := parentDec_of_TInv T2 hbI
      have hT4split : T4.table = setStop L T2.clock T2.table ++ rNew := by
        rw [hrT, hT3table]
      have hpar24 : ∀ j, j < T2.table.length → parentOf T4.table j = parentOf T2.table j := by
        intro j hj
        rw [hT4split]
        rw [show parentOf (setStop L T2.clock T2.table ++ rNew) j =
            parentOf (setStop L T2.clock T2.table) j from
          parentOf_append_left _ _ j (by rw [setStop_length]; exact hj)]
        exact parentOf_setStop L T2.clock T2.table j
      have hex24 : ∀ j, j < T2.table.length →
          ((T4.table[j]?).isSome = (T2.table[j]?).isSome) := by
        intro j hj
        rw [hT4split,
          List.getElem?_append_left (by rw [setStop_length]; exact hj),
          setStop_getElem?]
        cases T2.table[j]? <;> rfl
      have hbmem : ∀ n ∈ bNew, n.id < T2.table.length := by
        intro n hn
        refine mem_id_lt T2.table hbI.ids n ?_
        rw [hbT]
        exact List.mem_append_right _ hn
      have htransfer : depthMax T4.table bNew = depthMax T2.table bNew :=
        depthMax_congr T2.table T4.table bNew
          (fun n hn => depthAt_congr T2.table T4.table T2.table.length hdec2 hpar24 hex24
            n.id (hbmem n hn))
      have hsplitMax : depthMax T4.table (closedAct :: (bNew ++ rNew)) =
          max (depthAt T4.table closedAct.id)
            (max (depthMax T4.table bNew) (depthMax T4.table rNew)) := by
        rw [depthMax_cons, depthMax_append]
      have hclosedId : closedAct.id = L := rfl
      rw [hsplitMax, hclosedId, hdepthL, progDepth]
      by_cases hb : body = CompProg.stop
      · have hbNil : bNew = [] := hbE hb
        have hpb : progDepth body = 0 := by rw [hb, progDepth]
        have hDB : depthMax T4.table bNew = 0 := by rw [hbNil]; rfl
        by_cases hr : rest = CompProg.stop
        · have hrNil : rNew = [] := hrE hr
          have hpr : progDepth rest = 0 := by rw [hr, progDepth]
          have hDR : depthMax T4.table rNew = 0 := by rw [hrNil]; rfl
          rw [hDB, hDR, hpb, hpr]
          omega
        · have hDR : depthMax T4.table rNew = st.stack.length + progDepth rest := by
            rw [hrD hr, hT3stack]
          rw [hDB, hDR, hpb]
          omega
      · have hDB : depthMax T4.table bNew = (st.stack.length + 1) + progDepth body := by
          rw [htransfer, hbD hb, hT1stackLen]
        by_cases hr : rest = CompProg.stop
        · have hrNil : rNew = [] := hrE hr
          have hpr : progDepth rest = 0 := by rw [hr, progDepth]
          have hDR : depthMax T4.table rNew = 0 := by rw [hrNil]; rfl
          rw [hDB, hDR, hpr]
          omega
        · have hDR : depthMax T4.table rNew = st.stack.length + progDepth rest := by
            rw [hrD hr, hT3stack]
          rw [hDB, hDR]
          omega

theorem initTracker_TInv : TInv initTracker := by
  refine ⟨?_, ?_, ?_, ?_, ?_, ?_, ?_⟩
  · intro i n h
    simp [initTracker] at h
  · intro n hn
    cases hn
  · intro n hn
    cases hn
  · intro n hn
    cases hn
  · intro s hs
    cases hs
  · trivial
  · intro n hn
    cases hn

/-- Claim C2: running any well-nested sequence of `track_component` guards
on one call chain (each guard released before its enclosing guard) produces
a node table whose size is the number of guards created and whose tree depth
is the nesting depth; every recorded parent exists in the table, started no
later than its child, and, when both are completed, ended no earlier than
its child. -/
theorem component_tree (p : CompProg) :
    (runComp p initTracker).table.length = scopeCount p ∧
    treeDepth (runComp p initTracker).table = progDepth p ∧
    (∀ n ∈ (runComp p initTracker).table, ∀ q, n.parent = some q →
      (∃ m ∈ (runComp p initTracker).table, m.id = q) ∧
      (∀ m ∈ (runComp p initTracker).table, m.id = q →
        m.start ≤ n.start ∧
        ∀ e e2, n.stop = some e → m.stop = some e2 → e ≤ e2)) := by
  obtain ⟨new, hT, hS, hC, hL, hI, hE, hD⟩ := runComp_spec p initTracker initTracker_TInv
  have hTnew : (runComp p initTracker).table = new := by
    rw [hT]
    rfl
  refine ⟨?_, ?_, ?_⟩
  · rw [hTnew, hL]
  · by_cases hp : p = CompProg.stop
    · subst hp
      rw [hTnew, hE rfl]
      rfl
    · have h := hD hp
      rw [hTnew] at h
      rw [treeDepth, hTnew, h]
      exact Nat.zero_add _
  · intro n hn q hq
    obtain ⟨hlt, hrel⟩ := hI.parentRel n hn q hq
    constructor
    · have hnlt : n.id < (runComp p initTracker).table.length :=
        mem_id_lt _ hI.ids n hn
      have hqlt : q < (runComp p initTracker).table.length := by omega
      have hq2 : (runComp p initTracker).table[q]? =
          some (runComp p initTracker).table[q] :=
        List.getElem?_eq_getElem hqlt
      exact ⟨_, List.getElem?_mem hq2, hI.ids q _ hq2⟩
    · intro m hm hmid
      obtain ⟨hstart, hstop⟩ := hrel m hm hmid
      refine ⟨Nat.le_of_lt hstart, ?_⟩
      intro e e2 he he2
      rcases hstop e he with h1 | ⟨e3, h3, hlt3⟩
      · rw [h1] at he2
        cases he2
      · rw [h3] at he2
        have he3 : e3 = e2 := Option.some.inj he2
        omega

/-- Witness for C2: the end-to-end scenario with guards "parent" and
"child", child created while parent is active and released first — two
nodes, tree depth two, and the child's parent id exists in the table. -/
theorem component_tree_witness :
    (runComp (CompProg.scope "parent" (.scope "child" .stop .stop) .stop)
      initTracker).table.length = 2 ∧
    treeDepth (runComp (CompProg.scope "parent" (.scope "child" .stop .stop) .stop)
      initTracker).table = 2 ∧
    (∃ m ∈ (runComp (CompProg.scope "parent" (.scope "child" .stop .stop) .stop)
        initTracker).table, m.id = 0) := by
  have h := component_tree (CompProg.scope "parent" (.scope "child" .stop .stop) .stop)
  refine ⟨h.1.trans (by decide), h.2.1.trans (by decide), ?_⟩
  have h2 := h.2.2 { id := 1, name := "child", parent := some 0, start := 1, stop := some 2 }
    (by decide) 0 rfl
  exact h2.1

end Telelog
